import Mathlib

/-!
Shallow embedding of `pkg/zipper/zipper.go` from the p2p-file-transfer
repository.  Filesystem effects and the Go standard-library calls made by
the zipper are modelled by an oracle structure `FS`; the control flow of
`Zip` and `addFileToZip` is translated statement by statement, threading the
`processed` dedup set and the sequence of archive entries explicitly.
-/

namespace Zipper

/-- The part of `os.FileInfo` the zipper consults (`info.IsDir()`). -/
structure FileInfo where
  isDir : Bool
  deriving DecidableEq, Repr

/-- Result of an `os.Stat` call: a file info, a does-not-exist error, or any
other error (`os.IsNotExist` distinguishes the two error kinds in
`addFileToZip`, zipper.go:140). -/
inductive StatResult where
  | ok (info : FileInfo)
  | notExist
  | statError
  deriving DecidableEq, Repr

/-- One invocation of the `filepath.Walk` callback (zipper.go:85): the
visited path, its file info, and whether the walk passed a non-nil access
error for this path. -/
structure WalkEvent where
  path : String
  info : FileInfo
  accessErr : Bool
  deriving DecidableEq, Repr

/-- Archive compression method; `addFileToZip` always sets `zip.Deflate`
(zipper.go:176). -/
inductive CompressionMethod where
  | store
  | deflate
  deriving DecidableEq, Repr

/-- One entry written to the archive: its stored name (`header.Name`), its
compression method (`header.Method`) and the bytes copied into it. -/
structure Entry where
  name : String
  method : CompressionMethod
  content : String
  deriving DecidableEq, Repr

/-- The errors `Zip`/`addFileToZip` can return, one constructor per
failure point in the source. -/
inductive ZipError where
  | createErr
  | walkAccess (path : String)
  | relErr (path : String)
  | openErr (path : String)
  | fstatErr (path : String)
  | headerErr (path : String)
  | createHeaderErr (path : String)
  | copyErr (path : String)
  deriving DecidableEq, Repr

/-- Oracle for the filesystem and for the Go standard-library calls the
zipper makes.  The pure path helpers (`filepath.Abs`, `Dir`, `Base`, `Rel`,
`ToSlash`) are host library functions, external to this repository, and so
appear as abstract fields.  Boolean fields model whether the corresponding
fallible call succeeds. -/
structure FS where
  /-- Result of `filepath.Abs`; `none` models a resolution error. -/
  absPath : String → Option String
  /-- Result of `os.Stat`. -/
  stat : String → StatResult
  /-- the visit sequence `filepath.Walk` presents to its callback for a
  given root. -/
  walk : String → List WalkEvent
  /-- Result of `filepath.Rel baseDir path`; `none` models an error. -/
  relPath : String → String → Option String
  /-- Result of `filepath.ToSlash`. -/
  toSlash : String → String
  /-- Result of `filepath.Dir`. -/
  dirOf : String → String
  /-- Result of `filepath.Base`. -/
  baseOf : String → String
  /-- whether `os.Create` succeeds for the output path. -/
  createOk : String → Bool
  /-- whether `os.Open` succeeds for a path. -/
  openOk : String → Bool
  /-- Result of `file.Stat()` on the freshly opened handle; `none` models an error. -/
  fstat : String → Option FileInfo
  /-- whether `zip.FileInfoHeader` succeeds on the handle's file info. -/
  headerOk : FileInfo → Bool
  /-- whether `zipWriter.CreateHeader` succeeds for a given entry name. -/
  createHeaderOk : String → Bool
  /-- whether `io.Copy` from the file into the entry succeeds. -/
  copyOk : String → Bool
  /-- the bytes of a file, as `io.Copy` would stream them. -/
  content : String → String
  /-- whether the deferred `zipWriter.Close()` succeeds. -/
  closeWriterOk : Bool
  /-- whether the deferred `zipFile.Close()` succeeds. -/
  closeFileOk : Bool

/-- Model of `ZipOptions` (zipper.go:11-22).  The `Abort` channel is modelled as an
opaque token: the traversal never consults it. -/
structure ZipOptions where
  inputPaths : List String
  outputPath : String
  compressionLevel : Int
  includeOriginal : Bool
  abort : Nat
  deriving DecidableEq, Repr

/-- zipper.go:24. -/
def DefaultOutputPath : String := "output.zip"

/-- zipper.go:33. -/
def OptionFn : Type := ZipOptions → ZipOptions

/-- zipper.go:26-31. -/
def WithPaths (inputPaths : List String) (outputPath : String) : OptionFn :=
  fun o => { o with inputPaths := inputPaths, outputPath := outputPath }

/-- zipper.go:35-46. -/
def loadOptions (opts : List OptionFn) : ZipOptions :=
  opts.foldl (fun o f => f o)
    { inputPaths := [], outputPath := DefaultOutputPath, compressionLevel := 0,
      includeOriginal := false, abort := 0 }

/-- Model of `addFileToZip` (zipper.go:138-195): the returned error together with the
entries appended to the archive (one on full success, none otherwise; a
fatal error aborts the job, so the truncated trailing data of a failed copy
is not observable as an entry). -/
def addFileToZip (fs : FS) (filePath zipPath : String) :
    Option ZipError × List Entry :=
  -- zipper.go:140-143: `if _, err := os.Stat(filePath); os.IsNotExist(err)`
  if fs.stat filePath = .notExist then
    (none, [])
  else
    -- zipper.go:145-148: `if info, err := os.Stat(filePath); err != nil || info.IsDir()`
    match fs.stat filePath with
    | .ok info =>
        if info.isDir then
          (none, [])
        else if fs.openOk filePath = false then
          -- zipper.go:149-153: open failure is returned
          (some (.openErr filePath), [])
        else
          -- zipper.go:162-166: `file.Stat()`
          match fs.fstat filePath with
          | none => (some (.fstatErr filePath), [])
          | some finfo =>
              -- zipper.go:169-173: `zip.FileInfoHeader(info)`
              if fs.headerOk finfo = false then
                (some (.headerErr filePath), [])
              -- zipper.go:182-185: `zipWriter.CreateHeader(header)`
              else if fs.createHeaderOk zipPath = false then
                (some (.createHeaderErr filePath), [])
              -- zipper.go:188-191: `io.Copy(writer, file)`
              else if fs.copyOk filePath = false then
                (some (.copyErr filePath), [])
              else
                -- zipper.go:176,179: Method is forced to Deflate, Name to zipPath
                (none, [{ name := zipPath, method := .deflate,
                          content := fs.content filePath }])
    | _ => (none, [])

/-- The body of the `filepath.Walk` callback in `Zip` (zipper.go:85-114),
with the `processed` set threaded explicitly. -/
def walkStep (fs : FS) (baseDir : String) (processed : List String)
    (ev : WalkEvent) : Option ZipError × List String × List Entry :=
  -- zipper.go:86-89: a non-nil access error is returned (fatal)
  if ev.accessErr then
    (some (.walkAccess ev.path), processed, [])
  -- zipper.go:92-95: directories are skipped as entries
  else if ev.info.isDir then
    (none, processed, [])
  else
    -- zipper.go:98-101: `filepath.Rel(baseDir, path)`
    match fs.relPath baseDir ev.path with
    | none => (some (.relErr ev.path), processed, [])
    | some relPath =>
        -- zipper.go:104: `filepath.ToSlash(relPath)`
        let relPathFwd := fs.toSlash relPath
        -- zipper.go:107-109: already processed, skip
        if processed.contains relPathFwd then
          (none, processed, [])
        else
          -- zipper.go:111: mark as processed BEFORE the add
          -- zipper.go:114: `return addFileToZip(zipWriter, path, relPathFwd)`
          let r := addFileToZip fs ev.path relPathFwd
          (r.1, relPathFwd :: processed, r.2)

/-- Model of `filepath.Walk` driving the callback over its visit sequence, stopping
at the first error the callback returns (zipper.go:85-115). -/
def runWalk (fs : FS) (baseDir : String) (evs : List WalkEvent)
    (processed : List String) : Option ZipError × List String × List Entry :=
  match evs with
  | [] => (none, processed, [])
  | ev :: rest =>
      let r := walkStep fs baseDir processed ev
      match r.1 with
      | some e => (some e, r.2.1, r.2.2)
      | none =>
          let r2 := runWalk fs baseDir rest r.2.1
          (r2.1, r2.2.1, r.2.2 ++ r2.2.2)

/-- One iteration of the input loop of `Zip` (zipper.go:71-133). -/
def processInput (fs : FS) (processed : List String) (source : String) :
    Option ZipError × List String × List Entry :=
  -- zipper.go:72-76: `filepath.Abs(source)`; failure warns and skips
  match fs.absPath source with
  | none => (none, processed, [])
  | some absSource =>
      -- zipper.go:77-81: `os.Stat(absSource)`; failure warns and skips
      match fs.stat absSource with
      | .ok info =>
          if info.isDir then
            -- zipper.go:84-118: walk rooted at absSource with base `Dir(absSource)`
            runWalk fs (fs.dirOf absSource) (fs.walk absSource) processed
          else
            -- zipper.go:121-122: key is `ToSlash(Base(absSource))`
            let relPathFwd := fs.toSlash (fs.baseOf absSource)
            -- zipper.go:125-131: add if unseen; mark AFTER a nil-error add
            if processed.contains relPathFwd then
              (none, processed, [])
            else
              let r := addFileToZip fs absSource relPathFwd
              match r.1 with
              | some e => (some e, processed, r.2)
              | none => (none, relPathFwd :: processed, r.2)
      | _ => (none, processed, [])

/-- The input loop of `Zip` (zipper.go:71-133), short-circuiting on the
first fatal error. -/
def processInputs (fs : FS) (sources : List String)
    (processed : List String) : Option ZipError × List String × List Entry :=
  match sources with
  | [] => (none, processed, [])
  | s :: rest =>
      let r := processInput fs processed s
      match r.1 with
      | some e => (some e, r.2.1, r.2.2)
      | none =>
          let r2 := processInputs fs rest r.2.1
          (r2.1, r2.2.1, r.2.2 ++ r2.2.2)

/-- A finalization step performed by the deferred functions of `Zip`. -/
inductive CloseAction where
  | closeWriter
  | closeFile
  deriving DecidableEq, Repr

/-- Observable outcome of one `Zip` call: the returned error, the entries of
the produced archive, and the close operations the deferred functions
attempted, in execution order, each paired with whether it succeeded. -/
structure ZipResult where
  error : Option ZipError
  entries : List Entry
  finalized : List (CloseAction × Bool)
  deriving DecidableEq, Repr

/-- Model of `Zip` (zipper.go:48-136) applied to an already-loaded options record.
If `os.Create` fails the error is returned with no deferred closes
registered (zipper.go:50-53).  Otherwise the deferred closes run
writer-first (registered last, zipper.go:62-67, runs before the file close
registered at zipper.go:54-59); their failures are printed only and never
assigned to the returned error. -/
def Zip (fs : FS) (opt : ZipOptions) : ZipResult :=
  if fs.createOk opt.outputPath = false then
    { error := some .createErr, entries := [], finalized := [] }
  else
    let r := processInputs fs opt.inputPaths []
    { error := r.1, entries := r.2.2,
      finalized := [(.closeWriter, fs.closeWriterOk),
                    (.closeFile, fs.closeFileOk)] }

/-- The exported variadic entry point `Zip(opts ...OptionFn)`
(zipper.go:48-49). -/
def zipWithOptions (fs : FS) (opts : List OptionFn) : ZipResult :=
  Zip fs (loadOptions opts)

/-! ### Reference functions used to state the claims

`discovered` lists, in traversal order and ignoring deduplication, the
(source path, archive key) pairs the job would consider; `dedupRun` is a
pure first-occurrence filter.  The clean-run lemmas below show that on a
filesystem where no per-file operation fails, `Zip` writes exactly the
entries of `dedupRun` over `discovered`. -/

/-- The entry `addFileToZip` writes for a pair (source path, archive key)
when every step succeeds. -/
def mkEntry (fs : FS) (pk : String × String) : Entry :=
  { name := pk.2, method := .deflate, content := fs.content pk.1 }

/-- The (source path, archive key) pairs a directory walk presents, in order,
dedup ignored: one pair per non-directory visit. -/
def wdisc (fs : FS) (baseDir : String) (evs : List WalkEvent) :
    List (String × String) :=
  evs.filterMap fun ev =>
    if ev.info.isDir then none
    else some (ev.path, fs.toSlash ((fs.relPath baseDir ev.path).getD ""))

/-- The (source path, archive key) pairs one input contributes, in order, dedup
ignored. -/
def inputDiscovered (fs : FS) (source : String) : List (String × String) :=
  match fs.absPath source with
  | none => []
  | some absSource =>
      match fs.stat absSource with
      | .ok info =>
          if info.isDir then wdisc fs (fs.dirOf absSource) (fs.walk absSource)
          else [(absSource, fs.toSlash (fs.baseOf absSource))]
      | _ => []

/-- All (source path, archive key) pairs of a job, in traversal order,
dedup ignored. -/
def discovered (fs : FS) (sources : List String) : List (String × String) :=
  (sources.map (inputDiscovered fs)).flatten

/-- First-occurrence filter: keeps each pair whose key is not yet seen, in
order, and returns the final seen set together with the kept pairs. -/
def dedupRun (l : List (String × String)) (seen : List String) :
    List String × List (String × String) :=
  match l with
  | [] => (seen, [])
  | pk :: rest =>
      if seen.contains pk.2 then dedupRun rest seen
      else
        let r := dedupRun rest (pk.2 :: seen)
        (r.1, pk :: r.2)

/-- Whether `addFileToZip` would succeed and write the expected entry for
this (path, key) pair. -/
def addCleanB (fs : FS) (filePath zipPath : String) : Bool :=
  decide (addFileToZip fs filePath zipPath =
    (none, [mkEntry fs (filePath, zipPath)]))

/-- Whether a walk visit is processed without a fatal error: no access
error, and for a file visit the relative path resolves and the add would
succeed. -/
def cleanEventB (fs : FS) (baseDir : String) (ev : WalkEvent) : Bool :=
  !ev.accessErr &&
    (ev.info.isDir ||
      match fs.relPath baseDir ev.path with
      | none => false
      | some relPath => addCleanB fs ev.path (fs.toSlash relPath))

/-- Whether one input is processed without a fatal error.  Inputs that fail
resolution or the top-level stat are clean: they are skipped with a warning
only. -/
def cleanInputB (fs : FS) (source : String) : Bool :=
  match fs.absPath source with
  | none => true
  | some absSource =>
      match fs.stat absSource with
      | .ok info =>
          if info.isDir then
            (fs.walk absSource).all (cleanEventB fs (fs.dirOf absSource))
          else addCleanB fs absSource (fs.toSlash (fs.baseOf absSource))
      | _ => true

/-- Whether an input fails top-level resolution or stat (and is therefore
skipped with a warning, contributing nothing). -/
def badInputB (fs : FS) (source : String) : Bool :=
  match fs.absPath source with
  | none => true
  | some absSource =>
      match fs.stat absSource with
      | .ok _ => false
      | _ => true

/-! ### Basic lemmas about the per-file add -/

theorem addFileToZip_mem_name {fs : FS} {p k : String} :
    ∀ e ∈ (addFileToZip fs p k).2, e.name = k := by
  intro e he
  unfold addFileToZip at he
  repeat' split at he
  all_goals simp_all

theorem addFileToZip_mem_method {fs : FS} {p k : String} :
    ∀ e ∈ (addFileToZip fs p k).2, e.method = .deflate := by
  intro e he
  unfold addFileToZip at he
  repeat' split at he
  all_goals simp_all

theorem addCleanB_eq {fs : FS} {p k : String} (h : addCleanB fs p k = true) :
    addFileToZip fs p k = (none, [mkEntry fs (p, k)]) :=
  of_decide_eq_true h

/-! ### Lemmas about the first-occurrence filter -/

theorem dedupRun_cons_mem {hd : String × String} {tl : List (String × String)}
    {seen : List String} (hc : hd.2 ∈ seen) :
    dedupRun (hd :: tl) seen = dedupRun tl seen := by
  simp [dedupRun, hc]

theorem dedupRun_cons_not_mem {hd : String × String}
    {tl : List (String × String)} {seen : List String} (hc : hd.2 ∉ seen) :
    dedupRun (hd :: tl) seen =
      ((dedupRun tl (hd.2 :: seen)).1, hd :: (dedupRun tl (hd.2 :: seen)).2) := by
  simp [dedupRun, hc]

theorem dedupRun_sub {l : List (String × String)} {seen : List String} :
    ∀ pk ∈ (dedupRun l seen).2, pk ∈ l := by
  induction l generalizing seen with
  | nil => simp [dedupRun]
  | cons hd tl ih =>
      intro pk h
      by_cases hc : hd.2 ∈ seen
      · rw [dedupRun_cons_mem hc] at h
        exact List.mem_cons_of_mem _ (ih _ h)
      · rw [dedupRun_cons_not_mem hc] at h
        rcases List.mem_cons.1 h with h | h
        · exact h ▸ List.mem_cons_self _ _
        · exact List.mem_cons_of_mem _ (ih _ h)

theorem dedupRun_fresh {l : List (String × String)} {seen : List String} :
    ∀ pk ∈ (dedupRun l seen).2, pk.2 ∉ seen := by
  induction l generalizing seen with
  | nil => simp [dedupRun]
  | cons hd tl ih =>
      intro pk h
      by_cases hc : hd.2 ∈ seen
      · rw [dedupRun_cons_mem hc] at h
        exact ih _ h
      · rw [dedupRun_cons_not_mem hc] at h
        rcases List.mem_cons.1 h with h | h
        · exact h ▸ hc
        · intro hmem
          exact ih _ h (List.mem_cons_of_mem _ hmem)

theorem dedupRun_keys_nodup {l : List (String × String)} {seen : List String} :
    ((dedupRun l seen).2.map Prod.snd).Nodup := by
  induction l generalizing seen with
  | nil => simp [dedupRun]
  | cons hd tl ih =>
      by_cases hc : hd.2 ∈ seen
      · rw [dedupRun_cons_mem hc]
        exact ih
      · rw [dedupRun_cons_not_mem hc]
        refine List.nodup_cons.2 ⟨?_, ih⟩
        intro hmem
        rcases List.mem_map.1 hmem with ⟨pk, hpk, hk⟩
        exact dedupRun_fresh pk hpk (hk ▸ List.mem_cons_self _ _)

theorem dedupRun_filter {l : List (String × String)} {seen : List String}
    {k : String} (hk : k ∉ seen) :
    ((dedupRun l seen).2.filter fun pk => pk.2 == k) =
      (l.find? fun pk => pk.2 == k).toList := by
  induction l generalizing seen with
  | nil => simp [dedupRun]
  | cons hd tl ih =>
      by_cases hc : hd.2 ∈ seen
      · have hne : (hd.2 == k) = false := by
          refine beq_eq_false_iff_ne.2 ?_
          intro he
          exact hk (he ▸ hc)
        rw [dedupRun_cons_mem hc, List.find?_cons, hne]
        exact ih hk
      · rw [dedupRun_cons_not_mem hc]
        by_cases he : hd.2 = k
        · have hbeq : (hd.2 == k) = true := beq_iff_eq.2 he
          have hrest : ((dedupRun tl (hd.2 :: seen)).2.filter
              fun pk => pk.2 == k) = [] := by
            refine List.filter_eq_nil_iff.2 ?_
            intro pk hpk hb
            have h2 := dedupRun_fresh pk hpk
            have h3 : pk.2 = hd.2 := by rw [beq_iff_eq.1 hb, he]
            exact h2 (by rw [h3]; exact List.mem_cons_self _ _)
          simp [List.filter_cons, hbeq, List.find?_cons, hrest]
        · have hbeq : (hd.2 == k) = false := beq_eq_false_iff_ne.2 he
          have hk2 : k ∉ hd.2 :: seen := by
            intro hmem
            rcases List.mem_cons.1 hmem with h | h
            · exact he h.symm
            · exact hk h
          simp only [List.filter_cons, hbeq, List.find?_cons,
            Bool.false_eq_true, if_false]
          exact ih hk2

theorem dedupRun_append {l1 l2 : List (String × String)} {seen : List String} :
    dedupRun (l1 ++ l2) seen =
      ((dedupRun l2 (dedupRun l1 seen).1).1,
        (dedupRun l1 seen).2 ++ (dedupRun l2 (dedupRun l1 seen).1).2) := by
  induction l1 generalizing seen with
  | nil => simp [dedupRun]
  | cons hd tl ih =>
      by_cases h : hd.2 ∈ seen
      · rw [List.cons_append, dedupRun_cons_mem h, dedupRun_cons_mem h, ih]
      · rw [List.cons_append, dedupRun_cons_not_mem h,
          dedupRun_cons_not_mem h, ih]
        simp

/-! ### Clean-run characterization

On a filesystem where no fatal-path operation fails, the traversal returns
no error and writes exactly the entries of the first-occurrence filter over
the discovered (path, key) pairs. -/

theorem runWalk_clean {fs : FS} {baseDir : String} {evs : List WalkEvent}
    {seen : List String}
    (h : ∀ ev ∈ evs, cleanEventB fs baseDir ev = true) :
    runWalk fs baseDir evs seen =
      (none, (dedupRun (wdisc fs baseDir evs) seen).1,
        ((dedupRun (wdisc fs baseDir evs) seen).2).map (mkEntry fs)) := by
  induction evs generalizing seen with
  | nil => simp [runWalk, wdisc, dedupRun]
  | cons ev rest ih =>
      have hev := h ev (List.mem_cons_self _ _)
      have hrest : ∀ e ∈ rest, cleanEventB fs baseDir e = true :=
        fun e he => h e (List.mem_cons_of_mem _ he)
      simp only [cleanEventB, Bool.and_eq_true, Bool.not_eq_true'] at hev
      obtain ⟨hacc, hbody⟩ := hev
      by_cases hd : ev.info.isDir
      · have hw : wdisc fs baseDir (ev :: rest) = wdisc fs baseDir rest := by
          simp [wdisc, List.filterMap_cons, hd]
        rw [hw]
        simp only [runWalk, walkStep, hacc, hd, Bool.false_eq_true, if_false,
          if_true, ite_true, ite_false]
        rw [ih hrest]
        simp
      · cases hrel : fs.relPath baseDir ev.path with
        | none => simp [hd, hrel] at hbody
        | some relPath =>
            simp only [hd, hrel, Bool.false_or] at hbody
            have hadd := addCleanB_eq hbody
            have hw : wdisc fs baseDir (ev :: rest) =
                (ev.path, fs.toSlash relPath) :: wdisc fs baseDir rest := by
              simp [wdisc, List.filterMap_cons, hd, hrel]
            rw [hw]
            by_cases hseen : fs.toSlash relPath ∈ seen
            · rw [dedupRun_cons_mem hseen]
              simp only [runWalk, walkStep, hacc, hd, Bool.false_eq_true,
                if_false, hrel]
              rw [if_pos (List.elem_iff.2 hseen)]
              rw [ih hrest]
              simp
            · rw [dedupRun_cons_not_mem hseen]
              simp only [runWalk, walkStep, hacc, hd, Bool.false_eq_true,
                if_false, hrel]
              rw [if_neg (fun hc => hseen (List.elem_iff.1 hc))]
              rw [hadd]
              simp only []
              rw [ih hrest]
              simp [mkEntry]

theorem processInput_clean {fs : FS} {s : String} {seen : List String}
    (h : cleanInputB fs s = true) :
    processInput fs seen s =
      (none, (dedupRun (inputDiscovered fs s) seen).1,
        ((dedupRun (inputDiscovered fs s) seen).2).map (mkEntry fs)) := by
  cases habs : fs.absPath s with
  | none => simp [processInput, inputDiscovered, habs, dedupRun]
  | some a =>
      cases hstat : fs.stat a with
      | ok info =>
          by_cases hd : info.isDir
          · have hclean : ∀ ev ∈ fs.walk a,
                cleanEventB fs (fs.dirOf a) ev = true := by
              have := h
              simp only [cleanInputB, habs, hstat, hd, if_true] at this
              exact List.all_eq_true.1 this
            simp only [processInput, habs, hstat, hd, if_true]
            rw [runWalk_clean hclean]
            simp [inputDiscovered, habs, hstat, hd]
          · have haddc : addCleanB fs a (fs.toSlash (fs.baseOf a)) = true := by
              have := h
              simp only [cleanInputB, habs, hstat, hd, if_false] at this
              exact this
            have hidisc : inputDiscovered fs s =
                [(a, fs.toSlash (fs.baseOf a))] := by
              simp [inputDiscovered, habs, hstat, hd]
            rw [hidisc]
            by_cases hseen : fs.toSlash (fs.baseOf a) ∈ seen
            · rw [dedupRun_cons_mem hseen]
              simp only [processInput, habs, hstat, hd, Bool.false_eq_true,
                if_false, ite_false]
              rw [if_pos (List.elem_iff.2 hseen)]
              simp [dedupRun]
            · rw [dedupRun_cons_not_mem hseen]
              simp only [processInput, habs, hstat, hd, Bool.false_eq_true,
                if_false, ite_false]
              rw [if_neg (fun hc => hseen (List.elem_iff.1 hc))]
              rw [addCleanB_eq haddc]
              simp [dedupRun, mkEntry]
      | notExist => simp [processInput, inputDiscovered, habs, hstat, dedupRun]
      | statError => simp [processInput, inputDiscovered, habs, hstat, dedupRun]

theorem processInputs_clean {fs : FS} {ins : List String} {seen : List String}
    (h : ∀ s ∈ ins, cleanInputB fs s = true) :
    processInputs fs ins seen =
      (none, (dedupRun (discovered fs ins) seen).1,
        ((dedupRun (discovered fs ins) seen).2).map (mkEntry fs)) := by
  induction ins generalizing seen with
  | nil => simp [processInputs, discovered, dedupRun]
  | cons s rest ih =>
      have hs := h s (List.mem_cons_self _ _)
      have hrest : ∀ x ∈ rest, cleanInputB fs x = true :=
        fun x hx => h x (List.mem_cons_of_mem _ hx)
      have hdisc : discovered fs (s :: rest) =
          inputDiscovered fs s ++ discovered fs rest := by
        simp [discovered]
      rw [hdisc, dedupRun_append]
      simp only [processInputs]
      rw [processInput_clean hs]
      simp only []
      rw [ih hrest]
      simp

/-! ### Freshness of entry names with respect to the seen set -/

theorem walkStep_seen_mono {fs : FS} {baseDir : String} {seen : List String}
    {ev : WalkEvent} : ∀ x ∈ seen, x ∈ (walkStep fs baseDir seen ev).2.1 := by
  intro x hx
  simp only [walkStep]
  repeat' split
  all_goals first
    | exact hx
    | exact List.mem_cons_of_mem _ hx

theorem walkStep_entry_fresh {fs : FS} {baseDir : String} {seen : List String}
    {ev : WalkEvent} : ∀ e ∈ (walkStep fs baseDir seen ev).2.2, e.name ∉ seen := by
  intro e he
  simp only [walkStep] at he
  split at he
  · simp at he
  split at he
  · simp at he
  split at he
  · simp at he
  split at he
  · simp at he
  · rename_i hc
    rw [addFileToZip_mem_name e he]
    exact fun hmem => hc (List.elem_iff.2 hmem)

theorem runWalk_entry_fresh {fs : FS} {baseDir : String} {evs : List WalkEvent}
    {seen : List String} :
    ∀ e ∈ (runWalk fs baseDir evs seen).2.2, e.name ∉ seen := by
  induction evs generalizing seen with
  | nil => simp [runWalk]
  | cons ev rest ih =>
      intro e he
      simp only [runWalk] at he
      split at he
      · exact walkStep_entry_fresh e he
      · rcases List.mem_append.1 he with h | h
        · exact walkStep_entry_fresh e h
        · intro hmem
          exact ih _ h (walkStep_seen_mono _ hmem)

/-! ### Composition of walks -/

theorem runWalk_cons_some {fs : FS} {baseDir : String} {seen : List String}
    {ev : WalkEvent} {rest : List WalkEvent} {e : ZipError}
    (h : (walkStep fs baseDir seen ev).1 = some e) :
    runWalk fs baseDir (ev :: rest) seen =
      (some e, (walkStep fs baseDir seen ev).2.1,
        (walkStep fs baseDir seen ev).2.2) := by
  simp only [runWalk, h]

theorem runWalk_cons_none {fs : FS} {baseDir : String} {seen : List String}
    {ev : WalkEvent} {rest : List WalkEvent}
    (h : (walkStep fs baseDir seen ev).1 = none) :
    runWalk fs baseDir (ev :: rest) seen =
      ((runWalk fs baseDir rest (walkStep fs baseDir seen ev).2.1).1,
       (runWalk fs baseDir rest (walkStep fs baseDir seen ev).2.1).2.1,
       (walkStep fs baseDir seen ev).2.2 ++
         (runWalk fs baseDir rest (walkStep fs baseDir seen ev).2.1).2.2) := by
  simp only [runWalk, h]

theorem runWalk_append_none {fs : FS} {baseDir : String}
    {l1 l2 : List WalkEvent} {seen : List String}
    (h : (runWalk fs baseDir l1 seen).1 = none) :
    runWalk fs baseDir (l1 ++ l2) seen =
      ((runWalk fs baseDir l2 (runWalk fs baseDir l1 seen).2.1).1,
       (runWalk fs baseDir l2 (runWalk fs baseDir l1 seen).2.1).2.1,
       (runWalk fs baseDir l1 seen).2.2 ++
         (runWalk fs baseDir l2 (runWalk fs baseDir l1 seen).2.1).2.2) := by
  induction l1 generalizing seen with
  | nil => simp [runWalk]
  | cons ev rest ih =>
      cases hstep : (walkStep fs baseDir seen ev).1 with
      | some e =>
          rw [runWalk_cons_some hstep] at h
          simp at h
      | none =>
          have h' : (runWalk fs baseDir rest
              (walkStep fs baseDir seen ev).2.1).1 = none := by
            rw [runWalk_cons_none hstep] at h
            exact h
          rw [List.cons_append, runWalk_cons_none hstep, ih h',
            runWalk_cons_none hstep]
          simp

/-! ### The traversal never reads the close oracles -/

/-- Copy of `fs` with the two close-result oracles replaced. -/
def FS.withClose (fs : FS) (b b' : Bool) : FS :=
  { fs with closeWriterOk := b, closeFileOk := b' }

theorem addFileToZip_withClose {fs : FS} {b b' : Bool} {p k : String} :
    addFileToZip (fs.withClose b b') p k = addFileToZip fs p k := by
  cases fs
  rfl

theorem walkStep_withClose {fs : FS} {b b' : Bool} {baseDir : String}
    {seen : List String} {ev : WalkEvent} :
    walkStep (fs.withClose b b') baseDir seen ev = walkStep fs baseDir seen ev := by
  cases fs
  rfl

theorem runWalk_withClose {fs : FS} {b b' : Bool} {baseDir : String}
    {evs : List WalkEvent} {seen : List String} :
    runWalk (fs.withClose b b') baseDir evs seen =
      runWalk fs baseDir evs seen := by
  induction evs generalizing seen with
  | nil => simp [runWalk]
  | cons ev rest ih =>
      simp only [runWalk, walkStep_withClose, ih]

theorem processInput_withClose {fs : FS} {b b' : Bool} {seen : List String}
    {s : String} :
    processInput (fs.withClose b b') seen s = processInput fs seen s := by
  have habs : (fs.withClose b b').absPath = fs.absPath := rfl
  have hstat : (fs.withClose b b').stat = fs.stat := rfl
  have hwalk : (fs.withClose b b').walk = fs.walk := rfl
  have hdir : (fs.withClose b b').dirOf = fs.dirOf := rfl
  have hbase : (fs.withClose b b').baseOf = fs.baseOf := rfl
  have hslash : (fs.withClose b b').toSlash = fs.toSlash := rfl
  unfold processInput
  rw [habs, hstat, hwalk, hdir, hbase, hslash]
  cases habs2 : fs.absPath s with
  | none => simp only [habs2]
  | some a =>
      simp only [habs2]
      cases hstat2 : fs.stat a with
      | ok info =>
          simp only [hstat2]
          cases hd : info.isDir <;>
            simp [hd, addFileToZip_withClose, runWalk_withClose]
      | notExist => simp only [hstat2]
      | statError => simp only [hstat2]

theorem processInputs_withClose {fs : FS} {b b' : Bool} {ins : List String}
    {seen : List String} :
    processInputs (fs.withClose b b') ins seen = processInputs fs ins seen := by
  induction ins generalizing seen with
  | nil => simp [processInputs]
  | cons s rest ih =>
      simp only [processInputs, processInput_withClose, ih]

/-! ### Outcome of the per-file add at each failure point -/

theorem addFileToZip_of_notExist {fs : FS} {p k : String}
    (h : fs.stat p = .notExist) : addFileToZip fs p k = (none, []) := by
  simp [addFileToZip, h]

theorem addFileToZip_of_statError {fs : FS} {p k : String}
    (h : fs.stat p = .statError) : addFileToZip fs p k = (none, []) := by
  simp [addFileToZip, h]

theorem addFileToZip_of_dir {fs : FS} {p k : String} {i : FileInfo}
    (h : fs.stat p = .ok i) (hd : i.isDir = true) :
    addFileToZip fs p k = (none, []) := by
  simp [addFileToZip, h, hd]

theorem addFileToZip_of_openFail {fs : FS} {p k : String} {i : FileInfo}
    (h : fs.stat p = .ok i) (hd : i.isDir = false) (ho : fs.openOk p = false) :
    addFileToZip fs p k = (some (.openErr p), []) := by
  simp [addFileToZip, h, hd, ho]

/-! ### Inputs that fail top-level resolution or stat are skipped -/

theorem processInput_bad {fs : FS} {seen : List String} {s : String}
    (h : badInputB fs s = true) :
    processInput fs seen s = (none, seen, []) := by
  cases habs : fs.absPath s with
  | none => simp [processInput, habs]
  | some a =>
      cases hstat : fs.stat a with
      | ok info => simp [badInputB, habs, hstat] at h
      | notExist => simp [processInput, habs, hstat]
      | statError => simp [processInput, habs, hstat]

theorem processInputs_bad {fs : FS} {ins : List String} {seen : List String}
    (h : ∀ s ∈ ins, badInputB fs s = true) :
    processInputs fs ins seen = (none, seen, []) := by
  induction ins with
  | nil => simp [processInputs]
  | cons s rest ih =>
      have hs := h s (List.mem_cons_self _ _)
      have hrest : ∀ x ∈ rest, badInputB fs x = true :=
        fun x hx => h x (List.mem_cons_of_mem _ hx)
      simp only [processInputs, processInput_bad hs]
      rw [ih hrest]
      simp

/-! ### Keys that are discovered and not yet seen survive the filter -/

theorem dedupRun_key_mem {l : List (String × String)} {seen : List String}
    {k : String} (hk : k ∈ l.map Prod.snd) (hs : k ∉ seen) :
    k ∈ (dedupRun l seen).2.map Prod.snd := by
  induction l generalizing seen with
  | nil => simp at hk
  | cons hd tl ih =>
      rw [List.map_cons] at hk
      by_cases hc : hd.2 ∈ seen
      · rw [dedupRun_cons_mem hc]
        rcases List.mem_cons.1 hk with h | h
        · exact absurd (h ▸ hc) hs
        · exact ih h hs
      · rw [dedupRun_cons_not_mem hc, List.map_cons]
        by_cases he : k = hd.2
        · exact he ▸ List.mem_cons_self _ _
        · rcases List.mem_cons.1 hk with h | h
          · exact absurd h he
          · refine List.mem_cons_of_mem _ (ih h ?_)
            intro hmem
            rcases List.mem_cons.1 hmem with h2 | h2
            · exact he h2
            · exact hs h2

/-! ### The compression method of every written entry -/

theorem walkStep_mem_method {fs : FS} {baseDir : String} {seen : List String}
    {ev : WalkEvent} :
    ∀ e ∈ (walkStep fs baseDir seen ev).2.2, e.method = .deflate := by
  intro e he
  simp only [walkStep] at he
  split at he
  · simp at he
  split at he
  · simp at he
  split at he
  · simp at he
  split at he
  · simp at he
  · exact addFileToZip_mem_method e he

theorem runWalk_mem_method {fs : FS} {baseDir : String} {evs : List WalkEvent}
    {seen : List String} :
    ∀ e ∈ (runWalk fs baseDir evs seen).2.2, e.method = .deflate := by
  induction evs generalizing seen with
  | nil => simp [runWalk]
  | cons ev rest ih =>
      intro e he
      simp only [runWalk] at he
      split at he
      · exact walkStep_mem_method e he
      · rcases List.mem_append.1 he with h | h
        · exact walkStep_mem_method e h
        · exact ih _ h

theorem processInput_mem_method {fs : FS} {seen : List String} {s : String} :
    ∀ e ∈ (processInput fs seen s).2.2, e.method = .deflate := by
  intro e he
  simp only [processInput] at he
  split at he
  · simp at he
  split at he
  · split at he
    · exact runWalk_mem_method e he
    · split at he
      · simp at he
      · split at he
        · exact addFileToZip_mem_method e he
        · exact addFileToZip_mem_method e he
  · simp at he

theorem processInputs_mem_method {fs : FS} {ins : List String}
    {seen : List String} :
    ∀ e ∈ (processInputs fs ins seen).2.2, e.method = .deflate := by
  induction ins generalizing seen with
  | nil => simp [processInputs]
  | cons s rest ih =>
      intro e he
      simp only [processInputs] at he
      split at he
      · exact processInput_mem_method e he
      · rcases List.mem_append.1 he with h | h
        · exact processInput_mem_method e h
        · exact ih _ h

/-! ## The claims -/

/-- C1: For every job, at most one archive entry is written per normalized
forward-slash relative path (archive key): when two discovered files map to
the same key, exactly one entry for that key appears in the archive and its
content is that of the file encountered first in input/traversal order;
later occurrences are skipped without error.  Stated for any job on a
filesystem on which no per-file operation fails (`cleanInputB`): the job
returns no error, entry names are pairwise distinct, and for every
discovered key the archive holds exactly the entry whose content is the
first discovered file for that key. -/
theorem C1_dedup_first_wins (fs : FS) (ins : List String) (out : String)
    (c : Int) (ic : Bool) (ab : Nat)
    (hclean : ∀ s ∈ ins, cleanInputB fs s = true)
    (hcr : fs.createOk out = true) :
    (Zip fs ⟨ins, out, c, ic, ab⟩).error = none ∧
    ((Zip fs ⟨ins, out, c, ic, ab⟩).entries.map Entry.name).Nodup ∧
    ∀ k pk, (discovered fs ins).find? (fun q => q.2 == k) = some pk →
      (Zip fs ⟨ins, out, c, ic, ab⟩).entries.filter (fun e => e.name == k) =
        [{ name := k, method := .deflate, content := fs.content pk.1 }] := by
  have hz : Zip fs ⟨ins, out, c, ic, ab⟩ =
      { error := (processInputs fs ins []).1,
        entries := (processInputs fs ins []).2.2,
        finalized := [(.closeWriter, fs.closeWriterOk),
                      (.closeFile, fs.closeFileOk)] } := by
    simp [Zip, hcr]
  rw [hz, processInputs_clean hclean]
  refine ⟨rfl, ?_, ?_⟩
  · have hmap : (((dedupRun (discovered fs ins) []).2.map
        (mkEntry fs)).map Entry.name) =
        (dedupRun (discovered fs ins) []).2.map Prod.snd := by
      rw [List.map_map]
      rfl
    simpa [hmap] using
      (@dedupRun_keys_nodup (discovered fs ins) [])
  · intro k pk hfind
    have hk : pk.2 = k := by
      have := List.find?_some hfind
      exact beq_iff_eq.1 this
    have hfilter : (((dedupRun (discovered fs ins) []).2.map
        (mkEntry fs)).filter fun e => e.name == k) =
        (((dedupRun (discovered fs ins) []).2.filter
          fun q => q.2 == k).map (mkEntry fs)) := by
      rw [List.filter_map]
      rfl
    simp only [ZipResult.entries]
    rw [hfilter, dedupRun_filter (by simp), hfind]
    simp [mkEntry, hk]

/-- Witness for C1 on a concrete filesystem where the two inputs `a` and
`b` are regular files sharing the base name `f`. -/
def fsA : FS where
  absPath := fun s => some s
  stat := fun _ => .ok ⟨false⟩
  walk := fun _ => []
  relPath := fun _ p => some p
  toSlash := fun p => p
  dirOf := fun p => p
  baseOf := fun _ => "f"
  createOk := fun _ => true
  openOk := fun _ => true
  fstat := fun _ => some ⟨false⟩
  headerOk := fun _ => true
  createHeaderOk := fun _ => true
  copyOk := fun _ => true
  content := fun s => s
  closeWriterOk := true
  closeFileOk := true

theorem C1_dedup_first_wins_witness :
    (Zip fsA ⟨["a", "b"], "out.zip", 0, false, 0⟩).error = none ∧
    ((Zip fsA ⟨["a", "b"], "out.zip", 0, false, 0⟩).entries.map Entry.name).Nodup ∧
    ∀ k pk, (discovered fsA ["a", "b"]).find? (fun q => q.2 == k) = some pk →
      (Zip fsA ⟨["a", "b"], "out.zip", 0, false, 0⟩).entries.filter
          (fun e => e.name == k) =
        [{ name := k, method := .deflate, content := fsA.content pk.1 }] :=
  C1_dedup_first_wins fsA ["a", "b"] "out.zip" 0 false 0
    (by decide) (by decide)

/-- C2: For every directory input, every regular-file descendant is stored
in the archive under its path relative to the directory's parent (the base
directory `Dir(abs)`), with separators normalized to forward slashes, and no
archive entry is ever created for a directory itself.  Stated for a clean
walk: the archive holds an entry named `ToSlash(Rel(Dir(abs), path))` for
every non-directory visit, and every entry stems from a non-directory
visit. -/
theorem C2_directory_flattening (fs : FS) (s out : String) (c : Int)
    (ic : Bool) (ab : Nat) (a : String) (i : FileInfo)
    (habs : fs.absPath s = some a)
    (hstat : fs.stat a = .ok i)
    (hdir : i.isDir = true)
    (hclean : ∀ ev ∈ fs.walk a, cleanEventB fs (fs.dirOf a) ev = true)
    (hcr : fs.createOk out = true) :
    (Zip fs ⟨[s], out, c, ic, ab⟩).error = none ∧
    (∀ ev ∈ fs.walk a, ev.info.isDir = false →
      ∃ r, fs.relPath (fs.dirOf a) ev.path = some r ∧
        ∃ e ∈ (Zip fs ⟨[s], out, c, ic, ab⟩).entries,
          e.name = fs.toSlash r) ∧
    (∀ e ∈ (Zip fs ⟨[s], out, c, ic, ab⟩).entries,
      ∃ ev ∈ fs.walk a, ev.info.isDir = false ∧
        ∃ r, fs.relPath (fs.dirOf a) ev.path = some r ∧
          e.name = fs.toSlash r) := by
  have hci : ∀ x ∈ [s], cleanInputB fs x = true := by
    intro x hx
    rcases List.mem_singleton.1 hx with rfl
    simp only [cleanInputB, habs, hstat, hdir, if_true]
    exact List.all_eq_true.2 hclean
  have hz : Zip fs ⟨[s], out, c, ic, ab⟩ =
      { error := (processInputs fs [s] []).1,
        entries := (processInputs fs [s] []).2.2,
        finalized := [(.closeWriter, fs.closeWriterOk),
                      (.closeFile, fs.closeFileOk)] } := by
    simp [Zip, hcr]
  have hdisc : discovered fs [s] = wdisc fs (fs.dirOf a) (fs.walk a) := by
    simp [discovered, inputDiscovered, habs, hstat, hdir]
  rw [hz, processInputs_clean hci, hdisc]
  refine ⟨rfl, ?_, ?_⟩
  · intro ev hev hfile
    have hcev := hclean ev hev
    simp only [cleanEventB, Bool.and_eq_true, Bool.not_eq_true'] at hcev
    cases hrel : fs.relPath (fs.dirOf a) ev.path with
    | none => simp [hfile, hrel] at hcev
    | some r =>
        refine ⟨r, rfl, ?_⟩
        have hmem : (ev.path, fs.toSlash r) ∈
            wdisc fs (fs.dirOf a) (fs.walk a) := by
          refine List.mem_filterMap.2 ⟨ev, hev, ?_⟩
          simp [hfile, hrel]
        have hkey : fs.toSlash r ∈
            (wdisc fs (fs.dirOf a) (fs.walk a)).map Prod.snd :=
          List.mem_map.2 ⟨(ev.path, fs.toSlash r), hmem, rfl⟩
        have hout := dedupRun_key_mem hkey (List.not_mem_nil _)
        rcases List.mem_map.1 hout with ⟨pk, hpk, hpk2⟩
        refine ⟨mkEntry fs pk, ?_, ?_⟩
        · exact List.mem_map.2 ⟨pk, hpk, rfl⟩
        · exact hpk2
  · intro e he
    simp only [ZipResult.entries] at he
    rcases List.mem_map.1 he with ⟨pk, hpk, rfl⟩
    have hpkw := dedupRun_sub pk hpk
    rcases List.mem_filterMap.1 hpkw with ⟨ev, hev, hevo⟩
    by_cases hd2 : ev.info.isDir
    · simp [hd2] at hevo
    · have hcev := hclean ev hev
      simp only [cleanEventB, Bool.and_eq_true, Bool.not_eq_true'] at hcev
      cases hrel : fs.relPath (fs.dirOf a) ev.path with
      | none =>
          rw [Bool.not_eq_true] at hd2
          simp [hd2, hrel] at hcev
      | some r =>
          refine ⟨ev, hev, by simpa using hd2, r, hrel, ?_⟩
          simp [hd2, hrel] at hevo
          rw [← hevo]
          rfl

/-- Witness filesystem for C2: input `d` is a directory whose walk visits
the root, a file, a subdirectory, and a nested file. -/
def fsB : FS where
  absPath := fun s => some s
  stat := fun s => if s = "d" then .ok ⟨true⟩ else .ok ⟨false⟩
  walk := fun _ =>
    [⟨"d", ⟨true⟩, false⟩, ⟨"d/x.txt", ⟨false⟩, false⟩,
     ⟨"d/sub", ⟨true⟩, false⟩, ⟨"d/sub/y.txt", ⟨false⟩, false⟩]
  relPath := fun _ p => some p
  toSlash := fun p => p
  dirOf := fun _ => "parent"
  baseOf := fun p => p
  createOk := fun _ => true
  openOk := fun _ => true
  fstat := fun _ => some ⟨false⟩
  headerOk := fun _ => true
  createHeaderOk := fun _ => true
  copyOk := fun _ => true
  content := fun s => s
  closeWriterOk := true
  closeFileOk := true

theorem C2_directory_flattening_witness :
    (Zip fsB ⟨["d"], "out.zip", 0, false, 0⟩).error = none ∧
    (∀ ev ∈ fsB.walk "d", ev.info.isDir = false →
      ∃ r, fsB.relPath (fsB.dirOf "d") ev.path = some r ∧
        ∃ e ∈ (Zip fsB ⟨["d"], "out.zip", 0, false, 0⟩).entries,
          e.name = fsB.toSlash r) ∧
    (∀ e ∈ (Zip fsB ⟨["d"], "out.zip", 0, false, 0⟩).entries,
      ∃ ev ∈ fsB.walk "d", ev.info.isDir = false ∧
        ∃ r, fsB.relPath (fsB.dirOf "d") ev.path = some r ∧
          e.name = fsB.toSlash r) :=
  C2_directory_flattening fsB "d" "out.zip" 0 false 0 "d" ⟨true⟩
    (by decide) (by decide) (by decide) (by decide) (by decide)

/-- C3: For every input that resolves to a regular file (not a directory),
the archive key is exactly the file's base name (`ToSlash(Base(abs))`) with
no directory components taken from the caller's path: the single entry
written for the input is named by `Base`, the standard library base-name
function, unlike the directory case where `Rel` to the parent preserves full
relative paths. -/
theorem C3_bare_file_base_name (fs : FS) (s out : String) (c : Int)
    (ic : Bool) (ab : Nat) (a : String) (i : FileInfo)
    (habs : fs.absPath s = some a)
    (hstat : fs.stat a = .ok i)
    (hfile : i.isDir = false)
    (hadd : addCleanB fs a (fs.toSlash (fs.baseOf a)) = true)
    (hcr : fs.createOk out = true) :
    (Zip fs ⟨[s], out, c, ic, ab⟩).error = none ∧
    (Zip fs ⟨[s], out, c, ic, ab⟩).entries =
      [{ name := fs.toSlash (fs.baseOf a), method := .deflate,
         content := fs.content a }] := by
  have hci : ∀ x ∈ [s], cleanInputB fs x = true := by
    intro x hx
    rcases List.mem_singleton.1 hx with rfl
    simp only [cleanInputB, habs, hstat, hfile, Bool.false_eq_true, if_false]
    exact hadd
  have hz : Zip fs ⟨[s], out, c, ic, ab⟩ =
      { error := (processInputs fs [s] []).1,
        entries := (processInputs fs [s] []).2.2,
        finalized := [(.closeWriter, fs.closeWriterOk),
                      (.closeFile, fs.closeFileOk)] } := by
    simp [Zip, hcr]
  have hdisc : discovered fs [s] = [(a, fs.toSlash (fs.baseOf a))] := by
    simp [discovered, inputDiscovered, habs, hstat, hfile]
  rw [hz, processInputs_clean hci, hdisc]
  refine ⟨rfl, ?_⟩
  rw [dedupRun_cons_not_mem (List.not_mem_nil _)]
  simp [dedupRun, mkEntry]

theorem C3_bare_file_base_name_witness :
    (Zip fsA ⟨["dir/sub/file.txt"], "out.zip", 0, false, 0⟩).error = none ∧
    (Zip fsA ⟨["dir/sub/file.txt"], "out.zip", 0, false, 0⟩).entries =
      [{ name := fsA.toSlash (fsA.baseOf "dir/sub/file.txt"),
         method := .deflate, content := fsA.content "dir/sub/file.txt" }] :=
  C3_bare_file_base_name fsA "dir/sub/file.txt" "out.zip" 0 false 0
    "dir/sub/file.txt" ⟨false⟩ (by decide) (by decide) (by decide)
    (by decide) (by decide)

/-- C4: A failure to resolve an input to an absolute path or to stat a
top-level input causes only that input to be skipped: the job's outcome on
`badInput :: rest` equals its outcome on `rest` alone, and when every input
fails resolution the job still succeeds, producing a zero-entry archive
whose both finalization steps are attempted. -/
theorem C4_partial_failure_tolerance (fs : FS) (out : String) (c : Int)
    (ic : Bool) (ab : Nat) :
    (∀ s rest, badInputB fs s = true →
      Zip fs ⟨s :: rest, out, c, ic, ab⟩ = Zip fs ⟨rest, out, c, ic, ab⟩) ∧
    (∀ ins, (∀ s ∈ ins, badInputB fs s = true) → fs.createOk out = true →
      Zip fs ⟨ins, out, c, ic, ab⟩ =
        { error := none, entries := [],
          finalized := [(.closeWriter, fs.closeWriterOk),
                        (.closeFile, fs.closeFileOk)] }) := by
  constructor
  · intro s rest hbad
    by_cases hcr : fs.createOk out = false
    · simp [Zip, hcr]
    · have hp : processInputs fs (s :: rest) [] = processInputs fs rest [] := by
        simp only [processInputs, processInput_bad hbad]
        rfl
      simp [Zip, hcr, hp]
  · intro ins hall hcr
    have hp := @processInputs_bad fs ins [] hall
    simp [Zip, hcr, hp]

/-- Witness filesystem for C4: `missing` fails resolution, `gone` fails the
top-level stat, both inputs of the job fail. -/
def fsC : FS where
  absPath := fun s => if s = "missing" then none else some s
  stat := fun s => if s = "gone" then .notExist else .statError
  walk := fun _ => []
  relPath := fun _ p => some p
  toSlash := fun p => p
  dirOf := fun p => p
  baseOf := fun p => p
  createOk := fun _ => true
  openOk := fun _ => true
  fstat := fun _ => some ⟨false⟩
  headerOk := fun _ => true
  createHeaderOk := fun _ => true
  copyOk := fun _ => true
  content := fun s => s
  closeWriterOk := true
  closeFileOk := true

theorem C4_partial_failure_tolerance_witness :
    Zip fsC ⟨["missing", "gone"], "out.zip", 0, false, 0⟩ =
      Zip fsC ⟨["gone"], "out.zip", 0, false, 0⟩ ∧
    Zip fsC ⟨["missing", "gone"], "out.zip", 0, false, 0⟩ =
      { error := none, entries := [],
        finalized := [(.closeWriter, true), (.closeFile, true)] } := by
  have h := C4_partial_failure_tolerance fsC "out.zip" 0 false 0
  exact ⟨h.1 "missing" ["gone"] (by decide),
    h.2 ["missing", "gone"] (by decide) (by decide)⟩

/-- C5: For every directory input, a metadata-access failure while visiting
a descendant during the walk is job-fatal: `Zip` returns the walk-access
error for the failing path, aborting the job, and the remaining inputs after
the directory are never processed (the result does not depend on them) —
unlike top-level resolution/stat failures, which only skip one input. -/
theorem C5_walk_error_fatal (fs : FS) (out : String) (c : Int) (ic : Bool)
    (ab : Nat) (s a : String) (i : FileInfo) (rest : List String)
    (pre post : List WalkEvent) (ev : WalkEvent)
    (habs : fs.absPath s = some a)
    (hstat : fs.stat a = .ok i)
    (hdir : i.isDir = true)
    (hwalk : fs.walk a = pre ++ ev :: post)
    (hpre : ∀ x ∈ pre, cleanEventB fs (fs.dirOf a) x = true)
    (hacc : ev.accessErr = true)
    (hcr : fs.createOk out = true) :
    (Zip fs ⟨s :: rest, out, c, ic, ab⟩).error = some (.walkAccess ev.path) ∧
    Zip fs ⟨s :: rest, out, c, ic, ab⟩ = Zip fs ⟨[s], out, c, ic, ab⟩ := by
  have hstep : (walkStep fs (fs.dirOf a)
      (runWalk fs (fs.dirOf a) pre []).2.1 ev).1 = some (.walkAccess ev.path) := by
    simp [walkStep, hacc]
  have hwrun : (runWalk fs (fs.dirOf a) (fs.walk a) []).1 =
      some (.walkAccess ev.path) := by
    rw [hwalk, runWalk_append_none (by rw [runWalk_clean hpre])]
    rw [runWalk_cons_some hstep]
  have hpi : (processInput fs [] s).1 = some (.walkAccess ev.path) := by
    simp only [processInput, habs, hstat, hdir, if_true]
    exact hwrun
  have hps : ∀ tail, processInputs fs (s :: tail) [] =
      ((processInput fs [] s).1, (processInput fs [] s).2.1,
        (processInput fs [] s).2.2) := by
    intro tail
    simp only [processInputs]
    rw [hpi]
  constructor
  · simp only [Zip, hcr, Bool.true_eq_false, if_false, ite_false]
    rw [hps rest, hpi]
  · simp only [Zip]
    rw [hps rest, hps []]

/-- Witness filesystem for C5: walking directory `d` hits an access error
on descendant `d/broken`. -/
def fsD : FS where
  absPath := fun s => some s
  stat := fun s => if s = "d" then .ok ⟨true⟩ else .ok ⟨false⟩
  walk := fun _ => [⟨"d/broken", ⟨false⟩, true⟩]
  relPath := fun _ p => some p
  toSlash := fun p => p
  dirOf := fun _ => "parent"
  baseOf := fun p => p
  createOk := fun _ => true
  openOk := fun _ => true
  fstat := fun _ => some ⟨false⟩
  headerOk := fun _ => true
  createHeaderOk := fun _ => true
  copyOk := fun _ => true
  content := fun s => s
  closeWriterOk := true
  closeFileOk := true

theorem C5_walk_error_fatal_witness :
    (Zip fsD ⟨["d", "other"], "out.zip", 0, false, 0⟩).error =
      some (.walkAccess "d/broken") ∧
    Zip fsD ⟨["d", "other"], "out.zip", 0, false, 0⟩ =
      Zip fsD ⟨["d"], "out.zip", 0, false, 0⟩ :=
  C5_walk_error_fatal fsD "out.zip" 0 false 0 "d" "d" ⟨true⟩ ["other"]
    [] [] ⟨"d/broken", ⟨false⟩, true⟩ (by decide) (by decide) (by decide)
    (by decide) (by decide) (by decide) (by decide)

/-- C6: In the per-file add operation, if the pre-open re-check finds the
file missing or not a regular file, the file is skipped with a warning and
the add returns success (no error, no entry); but if opening the file for
reading fails, the error is propagated and is job-fatal: a job whose first
input is such a file returns the open error. -/
theorem C6_recheck_skips_open_fatal (fs : FS) (p k : String) :
    (fs.stat p = .notExist → addFileToZip fs p k = (none, [])) ∧
    (fs.stat p = .statError → addFileToZip fs p k = (none, [])) ∧
    (∀ i : FileInfo, fs.stat p = .ok i → i.isDir = true →
      addFileToZip fs p k = (none, [])) ∧
    (∀ i : FileInfo, fs.stat p = .ok i → i.isDir = false →
      fs.openOk p = false →
      addFileToZip fs p k = (some (.openErr p), [])) ∧
    (∀ (s a out : String) (i : FileInfo) (c : Int) (ic : Bool) (ab : Nat)
        (rest : List String),
      fs.absPath s = some a → fs.stat a = .ok i → i.isDir = false →
      fs.openOk a = false → fs.createOk out = true →
      (Zip fs ⟨s :: rest, out, c, ic, ab⟩).error = some (.openErr a)) := by
  refine ⟨fun h => addFileToZip_of_notExist h,
    fun h => addFileToZip_of_statError h,
    fun i h hd => addFileToZip_of_dir h hd,
    fun i h hd ho => addFileToZip_of_openFail h hd ho,
    ?_⟩
  intro s a out i c ic ab rest habs hstat hd ho hcr
  have hpi : processInput fs [] s = (some (.openErr a), [], []) := by
    simp only [processInput, habs, hstat, hd, Bool.false_eq_true, if_false,
      ite_false]
    rw [if_neg (by simp)]
    rw [addFileToZip_of_openFail hstat hd ho]
  have hps : processInputs fs (s :: rest) [] = (some (.openErr a), [], []) := by
    simp only [processInputs]
    rw [hpi]
  simp [Zip, hcr, hps]

/-- Witness filesystem for C6: `vanished` fails the existence re-check,
`oddity` fails the second stat, `subdir` re-checks as a directory, and
`locked` passes the re-check but cannot be opened. -/
def fsE : FS where
  absPath := fun s => some s
  stat := fun s =>
    if s = "vanished" then .notExist
    else if s = "oddity" then .statError
    else if s = "subdir" then .ok ⟨true⟩
    else .ok ⟨false⟩
  walk := fun _ => []
  relPath := fun _ p => some p
  toSlash := fun p => p
  dirOf := fun p => p
  baseOf := fun p => p
  createOk := fun _ => true
  openOk := fun s => s != "locked"
  fstat := fun _ => some ⟨false⟩
  headerOk := fun _ => true
  createHeaderOk := fun _ => true
  copyOk := fun _ => true
  content := fun s => s
  closeWriterOk := true
  closeFileOk := true

theorem C6_recheck_skips_open_fatal_witness :
    addFileToZip fsE "vanished" "k" = (none, []) ∧
    addFileToZip fsE "oddity" "k" = (none, []) ∧
    addFileToZip fsE "subdir" "k" = (none, []) ∧
    addFileToZip fsE "locked" "k" = (some (.openErr "locked"), []) ∧
    (Zip fsE ⟨["locked", "fine"], "out.zip", 0, false, 0⟩).error =
      some (.openErr "locked") := by
  have h1 := (C6_recheck_skips_open_fatal fsE "vanished" "k").1 (by decide)
  have h2 := (C6_recheck_skips_open_fatal fsE "oddity" "k").2.1 (by decide)
  have h3 := (C6_recheck_skips_open_fatal fsE "subdir" "k").2.2.1
    ⟨true⟩ (by decide) (by decide)
  have h4 := (C6_recheck_skips_open_fatal fsE "locked" "k").2.2.2.1
    ⟨false⟩ (by decide) (by decide) (by decide)
  have h5 := (C6_recheck_skips_open_fatal fsE "locked" "k").2.2.2.2
    "locked" "locked" "out.zip" ⟨false⟩ 0 false 0 ["fine"]
    (by decide) (by decide) (by decide) (by decide) (by decide)
  exact ⟨h1, h2, h3, h4, h5⟩

/-- C7 counterexample filesystem: a job with no inputs on which everything
succeeds except closing the zip writer. -/
def fsF : FS where
  absPath := fun _ => none
  stat := fun _ => .notExist
  walk := fun _ => []
  relPath := fun _ _ => none
  toSlash := fun p => p
  dirOf := fun p => p
  baseOf := fun p => p
  createOk := fun _ => true
  openOk := fun _ => true
  fstat := fun _ => some ⟨false⟩
  headerOk := fun _ => true
  createHeaderOk := fun _ => true
  copyOk := fun _ => true
  content := fun s => s
  closeWriterOk := false
  closeFileOk := true

/-- C7 as stated is false on the code: here the archive-writer close fails
(`closeWriterOk = false`, visible in the finalization trace) and no earlier
fatal error occurred, yet `Zip` returns success (`error = none`) — the
deferred close only prints the failure (zipper.go:62-67) and never replaces
the function's return value. -/
theorem C7_close_error_counterexample :
    fsF.closeWriterOk = false ∧
    (Zip fsF ⟨[], "out.zip", 0, false, 0⟩).finalized =
      [(.closeWriter, false), (.closeFile, true)] ∧
    (Zip fsF ⟨[], "out.zip", 0, false, 0⟩).error = none := by
  decide

/-- C7 amended: an archive-writer finalize (close) failure is never
surfaced as `Zip`'s error: the returned error is unchanged under any close
results, and whenever the traversal finished without a fatal error `Zip`
returns success even if finalizing the writer fails.  The failure is only
recorded (printed) in the finalization trace. -/
theorem C7_close_error_not_surfaced (fs : FS) (opt : ZipOptions)
    (b b' : Bool) :
    (Zip (fs.withClose b b') opt).error = (Zip fs opt).error ∧
    ((processInputs fs opt.inputPaths []).1 = none →
      fs.createOk opt.outputPath = true →
      (Zip (fs.withClose b b') opt).error = none) ∧
    (fs.createOk opt.outputPath = true →
      (Zip (fs.withClose b b') opt).finalized =
        [(.closeWriter, b), (.closeFile, b')]) := by
  have hcore : (Zip (fs.withClose b b') opt).error = (Zip fs opt).error := by
    by_cases hcr : fs.createOk opt.outputPath = false
    · have hcr2 : (fs.withClose b b').createOk opt.outputPath = false := hcr
      simp [Zip, hcr, hcr2]
    · have hcr2 : ¬ (fs.withClose b b').createOk opt.outputPath = false := hcr
      simp [Zip, hcr, hcr2, processInputs_withClose]
  refine ⟨hcore, ?_, ?_⟩
  · intro herr hcr
    rw [hcore]
    simp [Zip, hcr, herr]
  · intro hcr
    simp [Zip, FS.withClose, hcr]

theorem C7_close_error_not_surfaced_witness :
    (Zip (fsA.withClose false true) ⟨["a"], "out.zip", 0, false, 0⟩).error =
      (Zip fsA ⟨["a"], "out.zip", 0, false, 0⟩).error ∧
    (Zip (fsA.withClose false true) ⟨["a"], "out.zip", 0, false, 0⟩).error =
      none ∧
    (Zip (fsA.withClose false true) ⟨["a"], "out.zip", 0, false, 0⟩).finalized =
      [(.closeWriter, false), (.closeFile, true)] := by
  have h := C7_close_error_not_surfaced fsA ⟨["a"], "out.zip", 0, false, 0⟩
    false true
  exact ⟨h.1, h.2.1 (by decide) (by decide), h.2.2 (by decide)⟩

/-- C8: On every exit path of `Zip` on which the output file was created —
success or fatal traversal error — both finalization steps are attempted
unconditionally, in the order close-the-writer then close-the-file (the
deferred functions run in reverse registration order), and a failure of
either close never changes the value `Zip` returns. -/
theorem C8_finalization_order (fs : FS) (opt : ZipOptions) (b b' : Bool)
    (hcr : fs.createOk opt.outputPath = true) :
    (Zip fs opt).finalized =
      [(.closeWriter, fs.closeWriterOk), (.closeFile, fs.closeFileOk)] ∧
    (Zip (fs.withClose b b') opt).error = (Zip fs opt).error ∧
    (Zip (fs.withClose b b') opt).entries = (Zip fs opt).entries := by
  have hcr2 : ¬ (fs.withClose b b').createOk opt.outputPath = false := by
    intro h
    rw [show (fs.withClose b b').createOk = fs.createOk from rfl, hcr] at h
    cases h
  refine ⟨by simp [Zip, hcr], ?_, ?_⟩ <;>
    simp [Zip, hcr, hcr2, processInputs_withClose]

/-- Witness filesystem for C8 with a fatal mid-traversal error: the only
input is a regular file that cannot be opened. -/
def fsG : FS where
  absPath := fun s => some s
  stat := fun _ => .ok ⟨false⟩
  walk := fun _ => []
  relPath := fun _ p => some p
  toSlash := fun p => p
  dirOf := fun p => p
  baseOf := fun p => p
  createOk := fun _ => true
  openOk := fun _ => false
  fstat := fun _ => some ⟨false⟩
  headerOk := fun _ => true
  createHeaderOk := fun _ => true
  copyOk := fun _ => true
  content := fun s => s
  closeWriterOk := false
  closeFileOk := false

theorem C8_finalization_order_witness :
    (Zip fsG ⟨["f"], "out.zip", 0, false, 0⟩).finalized =
      [(.closeWriter, false), (.closeFile, false)] ∧
    (Zip (fsG.withClose true true) ⟨["f"], "out.zip", 0, false, 0⟩).error =
      (Zip fsG ⟨["f"], "out.zip", 0, false, 0⟩).error ∧
    (Zip (fsG.withClose true true) ⟨["f"], "out.zip", 0, false, 0⟩).entries =
      (Zip fsG ⟨["f"], "out.zip", 0, false, 0⟩).entries :=
  C8_finalization_order fsG ⟨["f"], "out.zip", 0, false, 0⟩ true true
    (by decide)

/-- C9: For any two jobs that differ only in the `CompressionLevel`,
`IncludeOriginal`, or `Abort` fields of the options (same inputs, same
output path, same filesystem), `Zip` produces the same result — archive
contents, error and finalization included — and entry compression is always
forced to the single deflate method. -/
theorem C9_dead_options_deflate_only (fs : FS) (o1 o2 : ZipOptions)
    (hin : o1.inputPaths = o2.inputPaths)
    (hout : o1.outputPath = o2.outputPath) :
    Zip fs o1 = Zip fs o2 ∧
    ∀ e ∈ (Zip fs o1).entries, e.method = .deflate := by
  obtain ⟨i1, p1, c1, b1, a1⟩ := o1
  obtain ⟨i2, p2, c2, b2, a2⟩ := o2
  simp only at hin hout
  subst hin
  subst hout
  refine ⟨rfl, ?_⟩
  intro e he
  by_cases hcr : fs.createOk p1 = false
  · simp [Zip, hcr] at he
  · simp only [Zip, hcr, if_false, ite_false] at he
    exact processInputs_mem_method e he

theorem C9_dead_options_deflate_only_witness :
    Zip fsA ⟨["a", "b"], "out.zip", 0, false, 0⟩ =
      Zip fsA ⟨["a", "b"], "out.zip", 9, true, 7⟩ ∧
    ∀ e ∈ (Zip fsA ⟨["a", "b"], "out.zip", 0, false, 0⟩).entries,
      e.method = .deflate :=
  C9_dead_options_deflate_only fsA ⟨["a", "b"], "out.zip", 0, false, 0⟩
    ⟨["a", "b"], "out.zip", 9, true, 7⟩ rfl rfl

/-- C10: In the directory-walk case an archive key is marked in the
seen-set before the per-file add runs, not after an entry is accepted: the
updated set is `key :: seen` whatever the add does, so when the first file
for a key is skipped by the pre-open re-check (it re-stats as missing), no
later file can ever write an entry for that key in this walk — whereas in
the single-file case the key is marked seen only after the add returns
without error, and is left unmarked when the add fails. -/
theorem C10_mark_before_add (fs : FS) :
    (∀ (b : String) (seen : List String) (ev : WalkEvent) (r : String),
      ev.accessErr = false → ev.info.isDir = false →
      fs.relPath b ev.path = some r → fs.toSlash r ∉ seen →
      (walkStep fs b seen ev).2.1 = fs.toSlash r :: seen) ∧
    (∀ (b : String) (seen : List String) (ev : WalkEvent)
        (rest : List WalkEvent) (r : String),
      ev.accessErr = false → ev.info.isDir = false →
      fs.relPath b ev.path = some r → fs.toSlash r ∉ seen →
      fs.stat ev.path = .notExist →
      ∀ e ∈ (runWalk fs b (ev :: rest) seen).2.2, e.name ≠ fs.toSlash r) ∧
    (∀ (seen : List String) (s a : String) (i : FileInfo) (err : ZipError),
      fs.absPath s = some a → fs.stat a = .ok i → i.isDir = false →
      fs.toSlash (fs.baseOf a) ∉ seen →
      (addFileToZip fs a (fs.toSlash (fs.baseOf a))).1 = some err →
      (processInput fs seen s).2.1 = seen) ∧
    (∀ (seen : List String) (s a : String) (i : FileInfo),
      fs.absPath s = some a → fs.stat a = .ok i → i.isDir = false →
      fs.toSlash (fs.baseOf a) ∉ seen →
      (addFileToZip fs a (fs.toSlash (fs.baseOf a))).1 = none →
      (processInput fs seen s).2.1 = fs.toSlash (fs.baseOf a) :: seen) := by
  have hstep : ∀ (b : String) (seen : List String) (ev : WalkEvent)
      (r : String), ev.accessErr = false → ev.info.isDir = false →
      fs.relPath b ev.path = some r → fs.toSlash r ∉ seen →
      walkStep fs b seen ev =
        ((addFileToZip fs ev.path (fs.toSlash r)).1, fs.toSlash r :: seen,
          (addFileToZip fs ev.path (fs.toSlash r)).2) := by
    intro b seen ev r hacc hd hrel hseen
    simp only [walkStep, hacc, hd, Bool.false_eq_true, if_false, ite_false,
      hrel]
    rw [if_neg (fun hc => hseen (List.elem_iff.1 hc))]
  refine ⟨?_, ?_, ?_, ?_⟩
  · intro b seen ev r hacc hd hrel hseen
    rw [hstep b seen ev r hacc hd hrel hseen]
  · intro b seen ev rest r hacc hd hrel hseen hvan
    intro e he
    have hw : walkStep fs b seen ev = (none, fs.toSlash r :: seen, []) := by
      rw [hstep b seen ev r hacc hd hrel hseen,
        addFileToZip_of_notExist hvan]
    have hrw : runWalk fs b (ev :: rest) seen =
        ((runWalk fs b rest (fs.toSlash r :: seen)).1,
         (runWalk fs b rest (fs.toSlash r :: seen)).2.1,
         [] ++ (runWalk fs b rest (fs.toSlash r :: seen)).2.2) := by
      have h0 : (walkStep fs b seen ev).1 = none := by rw [hw]
      rw [runWalk_cons_none h0, hw]
    rw [hrw] at he
    simp only [List.nil_append] at he
    have hfresh := runWalk_entry_fresh e he
    intro hname
    exact hfresh (hname ▸ List.mem_cons_self _ _)
  · intro seen s a i err habs hstat hd hseen hadd
    simp only [processInput, habs, hstat, hd, Bool.false_eq_true, if_false,
      ite_false]
    rw [if_neg (fun hc => hseen (List.elem_iff.1 hc)), hadd]
  · intro seen s a i habs hstat hd hseen hadd
    simp only [processInput, habs, hstat, hd, Bool.false_eq_true, if_false,
      ite_false]
    rw [if_neg (fun hc => hseen (List.elem_iff.1 hc)), hadd]

/-- Witness filesystem for C10: during the walk of `bd`, descendant
`vanished` (key `k`) re-stats as missing, and a later descendant `f2` (key
`k2`) is added normally; as single-file inputs, `sf` fails to open while
`sg` is added successfully. -/
def fsH : FS where
  absPath := fun s => some s
  stat := fun s =>
    if s = "vanished" then .notExist
    else if s = "bd" then .ok ⟨true⟩
    else .ok ⟨false⟩
  walk := fun _ => [⟨"vanished", ⟨false⟩, false⟩, ⟨"f2", ⟨false⟩, false⟩]
  relPath := fun _ p => if p = "vanished" then some "k" else some "k2"
  toSlash := fun p => p
  dirOf := fun p => p
  baseOf := fun p => p
  createOk := fun _ => true
  openOk := fun s => s != "sf"
  fstat := fun _ => some ⟨false⟩
  headerOk := fun _ => true
  createHeaderOk := fun _ => true
  copyOk := fun _ => true
  content := fun _ => "c2"
  closeWriterOk := true
  closeFileOk := true

theorem C10_mark_before_add_witness :
    (walkStep fsH "bd" [] ⟨"vanished", ⟨false⟩, false⟩).2.1 = ["k"] ∧
    ({ name := "k2", method := .deflate, content := "c2" } : Entry).name ≠
      "k" ∧
    (processInput fsH [] "sf").2.1 = [] ∧
    (processInput fsH [] "sg").2.1 = ["sg"] := by
  have h := C10_mark_before_add fsH
  refine ⟨?_, ?_, ?_, ?_⟩
  · exact h.1 "bd" [] ⟨"vanished", ⟨false⟩, false⟩ "k"
      (by decide) (by decide) (by decide) (by decide)
  · exact h.2.1 "bd" [] ⟨"vanished", ⟨false⟩, false⟩
      [⟨"f2", ⟨false⟩, false⟩] "k" (by decide) (by decide) (by decide)
      (by decide) (by decide)
      { name := "k2", method := .deflate, content := "c2" } (by decide)
  · exact h.2.2.1 [] "sf" "sf" ⟨false⟩ (.openErr "sf")
      (by decide) (by decide) (by decide) (by decide) (by decide)
  · exact h.2.2.2 [] "sg" "sg" ⟨false⟩
      (by decide) (by decide) (by decide) (by decide) (by decide)

end Zipper
